import Mathlib

/-!
Shallow embedding of the core event pipeline of the polymarket copy-trading
bot: the dedup cache and dedup key (`src/services/activityQueue.ts`), the
activity distributor (`src/services/activityDistributor.ts`), the monitor's
timestamp filter (`src/services/tradeMonitor.ts`), and the executor worker's
aggregation buffer, paper trader and dequeue routing
(`src/workers/executorWorker.ts`).

JS numbers are modelled by `ℚ`; wall-clock instants (`Date.now()`) are
explicit `ℚ` parameters.  A JS `Map` is modelled as an insertion-ordered
association list (`List (key × value)`): `Map.get`/`has` look up the first
(unique) occurrence, `Map.set` of an existing key replaces it in place,
`Map.set` of a fresh key appends at the end, `Map.delete` removes the entry,
and iteration follows list order, exactly as JS `Map` iteration follows
insertion order.  The JS guard `x || 0` on a numeric field is the identity
on `ℚ` (it maps `0` to `0` and any other number to itself), so it is
translated away where the field is already a number.
-/

/-- An activity as it flows through the pipeline (`QueueActivity` in
`activityQueue.ts`): the feed's trade event plus the leader's address.
`transactionHash` is optional in the feed, hence `Option String`. -/
structure QueueActivity where
  transactionHash : Option String
  userAddress : String
  conditionId : String
  asset : String
  side : String
  price : ℚ
  size : ℚ
  usdcSize : ℚ
  timestamp : ℚ
  slug : Option String
  eventSlug : Option String
deriving Repr, DecidableEq

/-- The composite fallback dedup key: the six fields joined with `:`
(`[...].join(':')` in `buildActivityDedupKey`).  Numeric fields are joined
via their string rendering. -/
def compositeDedupKey (a : QueueActivity) : String :=
  String.intercalate ":"
    [a.userAddress, a.conditionId, toString a.timestamp, a.side,
     toString a.usdcSize, toString a.price]

/-- `buildActivityDedupKey` (`activityQueue.ts:124-137`).  The JS guard
`if (activity.transactionHash)` is falsy both for an absent hash and for the
empty string, so the composite key is used in both of those cases; otherwise
the lowercased hash is the key. -/
def buildActivityDedupKey (a : QueueActivity) : String :=
  match a.transactionHash with
  | some h => if h = "" then compositeDedupKey a else h.toLower
  | none => compositeDedupKey a

/-- State of `InMemoryDedupCache` (`activityQueue.ts:9-44`): the backing
`Map<string, number>` as an insertion-ordered list of `(key, insertedAtMs)`
pairs, plus the two configuration fields. -/
structure DedupCache where
  entries : List (String × ℚ)
  ttlMs : ℚ
  maxEntries : Nat
deriving Repr, DecidableEq

/-- The constructor of `InMemoryDedupCache`: `ttlMs` is floored at 1 and
`maxEntries` at 1 (`Math.max(ttlMs, 1)`, `Math.max(maxEntries, 1)`). -/
def mkDedupCache (ttlMs : ℚ) (maxEntries : Nat := 5000) : DedupCache :=
  ⟨[], max ttlMs 1, max maxEntries 1⟩

/-- `evictExpired(now)` deletes every entry with `now - timestamp > ttlMs`
while iterating, i.e. keeps exactly the entries with `now - t ≤ ttlMs`. -/
def evictExpired (now : ℚ) (c : DedupCache) : DedupCache :=
  { c with entries := c.entries.filter (fun e => decide (now - e.2 ≤ c.ttlMs)) }

/-- `checkAndRemember(key)` (`activityQueue.ts:19-30`) at wall time `now`:
sweep expired entries; if the key is still present return `false`; otherwise
append `(key, now)` and, when the map has grown past `maxEntries`, delete the
oldest-inserted key — guarded by the JS truthiness test `if (oldestKey)`,
which skips the deletion when the oldest key is the empty string. -/
def checkAndRemember (c : DedupCache) (key : String) (now : ℚ) :
    Bool × DedupCache :=
  let c1 := evictExpired now c
  if c1.entries.any (fun e => decide (e.1 = key)) then
    (false, c1)
  else
    let e2 := c1.entries ++ [(key, now)]
    let e3 :=
      if e2.length > c1.maxEntries then
        match e2 with
        | [] => []
        | (k0, t0) :: rest => if k0 = "" then (k0, t0) :: rest else rest
      else e2
    (true, { c1 with entries := e3 })

/-- `size()` (`activityQueue.ts:32-35`): sweep at the current time, then
report the number of remaining entries. -/
def DedupCache.size (c : DedupCache) (now : ℚ) : Nat :=
  (evictExpired now c).entries.length

/-- Run a list of `checkAndRemember` calls `(key, now)` in order, keeping
only the final cache state. -/
def runCalls (c : DedupCache) : List (String × ℚ) → DedupCache
  | [] => c
  | (k, t) :: rest => runCalls (checkAndRemember c k t).2 rest

/-! ## Activity distributor (`src/services/activityDistributor.ts`) -/

/-- Module state of the distributor: the registered worker ids in
registration order (`workerPorts`), the round-robin counter
(`roundRobinIndex`) and the FIFO backlog. -/
structure DistState where
  ports : List Nat
  rr : Nat
  backlog : List QueueActivity
deriving Repr, DecidableEq

/-- `pickWorker` (`activityDistributor.ts:36-41`): `null` on an empty
registry; otherwise selects `workerPorts[rr % len]` and then advances
`rr := (rr + 1) % len`. -/
def pickWorker (s : DistState) : Option Nat × DistState :=
  if s.ports = [] then (none, s)
  else
    (some (s.ports.getD (s.rr % s.ports.length) 0),
     { s with rr := (s.rr + 1) % s.ports.length })

/-- The send loop of `flushBacklog`: the registry does not change while the
loop runs, so it is structural recursion over the backlog; each step shifts
the head, picks a worker round-robin and sends the activity to it.  Returns
the final round-robin counter and the messages sent, in order. -/
def flushGo (ports : List Nat) : List QueueActivity → Nat →
    Nat × List (Nat × QueueActivity)
  | [], rr => (rr, [])
  | a :: rest, rr =>
    let w := ports.getD (rr % ports.length) 0
    let out := flushGo ports rest ((rr + 1) % ports.length)
    (out.1, (w, a) :: out.2)

/-- `flushBacklog` (`activityDistributor.ts:43-51`): returns immediately on
an empty backlog; the `while` loop also never runs when no worker is
registered; otherwise it drains the whole backlog round-robin. -/
def flushBacklog (s : DistState) : DistState × List (Nat × QueueActivity) :=
  if s.backlog = [] then (s, [])
  else if s.ports = [] then (s, [])
  else
    let out := flushGo s.ports s.backlog s.rr
    ({ s with backlog := [], rr := out.1 }, out.2)

/-- `registerWorkerEndpoint` (`activityDistributor.ts:22-26`): push the new
worker onto the registry, then flush the backlog. -/
def registerWorkerEndpoint (id : Nat) (s : DistState) :
    DistState × List (Nat × QueueActivity) :=
  flushBacklog { s with ports := s.ports ++ [id] }

/-- `publishActivityToWorkers` (`activityDistributor.ts:53-60`): pick a
worker round-robin; when none is registered append the activity to the
backlog, otherwise send it to the picked worker. -/
def publishActivityToWorkers (a : QueueActivity) (s : DistState) :
    DistState × List (Nat × QueueActivity) :=
  match pickWorker s with
  | (none, s1) => ({ s1 with backlog := s1.backlog ++ [a] }, [])
  | (some w, s1) => (s1, [(w, a)])

/-! ## Monitor timestamp normalisation and age filter
(`src/services/tradeMonitor.ts:103-116`) -/

/-- The `activity.timestamp` field as seen by the monitor: a JS number, a
string (represented by the result of `Date.parse` on it: `some ms` when it
parses, `none` when `Date.parse` yields `NaN`), or a value of any other
type. -/
inductive TsValue where
  | num (x : ℚ)
  | str (parsed : Option ℚ)
  | other
deriving Repr, DecidableEq

/-- The normalisation of `activity.timestamp` to `activityMs`
(`tradeMonitor.ts:104-111`): `activityMs` starts at 0; a number `> 1e12` is
taken as milliseconds, any other number as seconds (multiplied by 1000); a
string contributes its `Date.parse` result, or 0 when that is `NaN`; any
other type leaves 0. -/
def normalizeActivityMs : TsValue → ℚ
  | .num x => if x > 10 ^ 12 then x else x * 1000
  | .str (some p) => p
  | .str none => 0
  | .other => 0

/-- The monitor's drop test (`tradeMonitor.ts:112-116`): the activity is
kept unless `activityMs === 0` or `nowMs - activityMs > TOO_OLD_SECONDS *
1000`. -/
def monitorKeeps (ts : TsValue) (nowMs tooOldSeconds : ℚ) : Bool :=
  let activityMs := normalizeActivityMs ts
  ¬(activityMs = 0 ∨ nowMs - activityMs > tooOldSeconds * 1000)

/-! ## Association-list model of a JS `Map` -/

/-- `Map.get` — the value at the first occurrence of the key. -/
def lookupMap {α : Type} : List (String × α) → String → Option α
  | [], _ => none
  | (k1, v) :: rest, k => if k1 = k then some v else lookupMap rest k

/-- `Map.set` — replace the value in place when the key exists, otherwise
append the new entry at the end (JS `Map` insertion order). -/
def setMap {α : Type} : List (String × α) → String → α → List (String × α)
  | [], k, v => [(k, v)]
  | (k1, v1) :: rest, k, v =>
    if k1 = k then (k, v) :: rest else (k1, v1) :: setMap rest k v

/-- `Map.delete` — remove the (first) entry with the key. -/
def delMap {α : Type} : List (String × α) → String → List (String × α)
  | [], _ => []
  | (k1, v1) :: rest, k =>
    if k1 = k then rest else (k1, v1) :: delMap rest k

/-! ## Executor worker (`src/workers/executorWorker.ts`) -/

/-- `TRADE_AGGREGATION_MIN_TOTAL_USD = 1.0` (`executorWorker.ts:15`). -/
def minTotalUsd : ℚ := 1

/-- `AggregatedTrade` (`executorWorker.ts:20-32`). -/
structure AggregatedTrade where
  userAddress : String
  conditionId : String
  asset : String
  side : String
  slug : Option String
  eventSlug : Option String
  trades : List QueueActivity
  totalUsdcSize : ℚ
  averagePrice : ℚ
  firstTradeTime : ℚ
  lastTradeTime : ℚ
deriving Repr, DecidableEq

/-- `getAggregationKey` (`executorWorker.ts:92-94`). -/
def getAggregationKey (trade : QueueActivity) : String :=
  String.intercalate ":"
    [trade.userAddress, trade.conditionId, trade.asset, trade.side]

/-- The aggregation buffer (`tradeAggregationBuffer`), a
`Map<string, AggregatedTrade>`. -/
abbrev AggBuffer := List (String × AggregatedTrade)

/-- `addToAggregationBuffer` (`executorWorker.ts:96-122`) at wall time
`now`.  An existing record gets the trade appended, `totalUsdcSize`
increased, `averagePrice` recomputed over the updated trades list as
`Σ usdcSize·price / totalUsdcSize` (falling back to the incoming trade's
price when the total is not positive), and `lastTradeTime` refreshed;
otherwise a fresh record is created with `firstTradeTime = now`. -/
def addToAggregationBuffer (trade : QueueActivity) (now : ℚ)
    (buf : AggBuffer) : AggBuffer :=
  let key := getAggregationKey trade
  match lookupMap buf key with
  | some existing =>
    let trades1 := existing.trades ++ [trade]
    let total1 := existing.totalUsdcSize + trade.usdcSize
    let totalValue := (trades1.map (fun t => t.usdcSize * t.price)).sum
    let avg1 := if total1 > 0 then totalValue / total1 else trade.price
    setMap buf key
      { existing with
        trades := trades1
        totalUsdcSize := total1
        averagePrice := avg1
        lastTradeTime := now }
  | none =>
    setMap buf key
      { userAddress := trade.userAddress
        conditionId := trade.conditionId
        asset := trade.asset
        side := if trade.side = "" then "BUY" else trade.side
        slug := trade.slug
        eventSlug := trade.eventSlug
        trades := [trade]
        totalUsdcSize := trade.usdcSize
        averagePrice := trade.price
        firstTradeTime := now
        lastTradeTime := now }

/-- `getReadyAggregatedTrades` (`executorWorker.ts:124-145`) at wall time
`now`: every record whose window has expired (`now - firstTradeTime ≥
TRADE_AGGREGATION_WINDOW_SECONDS * 1000`) is deleted from the buffer, and is
returned as ready exactly when `totalUsdcSize ≥ minTotalUsd`.  Returns
`(ready, remaining buffer)`. -/
def getReadyAggregatedTrades (now windowSeconds : ℚ) :
    AggBuffer → List AggregatedTrade × AggBuffer
  | [] => ([], [])
  | (k, agg) :: rest =>
    let out := getReadyAggregatedTrades now windowSeconds rest
    if now - agg.firstTradeTime ≥ windowSeconds * 1000 then
      if agg.totalUsdcSize ≥ minTotalUsd then (agg :: out.1, out.2)
      else (out.1, out.2)
    else (out.1, (k, agg) :: out.2)

/-- The synthetic trade built by `doAggregatedTrading`
(`executorWorker.ts:253-258`): the first contributing trade's fields with
`usdcSize`, `price` and `side` replaced by the aggregated values.  The
source indexes `agg.trades[0]`; reachable records always have at least one
trade, and an empty list yields a default-filled template here. -/
def syntheticOf (agg : AggregatedTrade) : QueueActivity :=
  let t0 := agg.trades.headD
    { transactionHash := none, userAddress := "", conditionId := "",
      asset := "", side := "", price := 0, size := 0, usdcSize := 0,
      timestamp := 0, slug := none, eventSlug := none }
  { t0 with
    usdcSize := agg.totalUsdcSize
    price := agg.averagePrice
    side := agg.side }

/-- `doAggregatedTrading` (`executorWorker.ts:222-273`) submits, per ready
record and in order, exactly one order built from its synthetic trade. -/
def submittedOrders (ready : List AggregatedTrade) : List QueueActivity :=
  ready.map syntheticOf

/-- One position of the paper trader (`executorWorker.ts:38`). -/
structure PaperPosition where
  conditionId : String
  asset : String
  size : ℚ
  invested : ℚ
  avgPrice : ℚ
deriving Repr, DecidableEq

/-- `PaperTrader` state: the USDC balance and the positions map keyed by
`conditionId`. -/
structure PaperState where
  balance : ℚ
  positions : List (String × PaperPosition)
deriving Repr, DecidableEq

/-- `Σ invested` over all positions (`getUserPortfolioValue`,
`executorWorker.ts:83-87`). -/
def getUserPortfolioValue (p : PaperState) : ℚ :=
  (p.positions.map (fun e => e.2.invested)).sum

/-- `PaperTrader.executeTrade` (`executorWorker.ts:49-81`).  A `BUY` with
`balance < usdcSize` is refused; otherwise the balance drops by `usdcSize`
and the position (created on demand) grows, with `avgPrice := invested/size`
when the new size is positive.  Any other side is treated as a sell: refused
without a position or with `existing.size < size`; otherwise the balance
grows by `usdcSize`, the position shrinks by `size` units and `usdcSize`
invested, and the position is deleted when its size reaches exactly 0.
Returns `(executed, new state)`. -/
def executeTrade (p : PaperState) (trade : QueueActivity) :
    Bool × PaperState :=
  let usdc := trade.usdcSize
  let sz := trade.size
  let cid := trade.conditionId
  if trade.side = "BUY" then
    if p.balance < usdc then (false, p)
    else
      let existing := (lookupMap p.positions cid).getD
        { conditionId := cid, asset := trade.asset, size := 0,
          invested := 0, avgPrice := 0 }
      let size1 := existing.size + sz
      let invested1 := existing.invested + usdc
      let avg1 := if size1 > 0 then invested1 / size1 else trade.price
      (true,
       { balance := p.balance - usdc
         positions := setMap p.positions cid
           { existing with
             size := size1
             invested := invested1
             avgPrice := avg1 } })
  else
    match lookupMap p.positions cid with
    | none => (false, p)
    | some existing =>
      if existing.size < sz then (false, p)
      else
        let size1 := existing.size - sz
        let invested1 := existing.invested - usdc
        let positions1 :=
          if size1 = 0 then delMap p.positions cid
          else setMap p.positions cid
            { existing with size := size1, invested := invested1 }
        (true, { balance := p.balance + usdc, positions := positions1 })

/-- One iteration of the executor's dequeue loop on a popped activity
(`executorWorker.ts:312-338`): with aggregation enabled, a `BUY` whose
`usdcSize` is strictly below `minTotalUsd` goes to the aggregation buffer
and nothing is executed; every other activity is executed immediately
(`doTrading` on the singleton batch).  Returns the new buffer and the
activity handed to `doTrading`, if any. -/
def dequeueStep (aggregationEnabled : Bool) (a : QueueActivity) (now : ℚ)
    (buf : AggBuffer) : AggBuffer × Option QueueActivity :=
  if aggregationEnabled ∧ a.side = "BUY" ∧ a.usdcSize < minTotalUsd then
    (addToAggregationBuffer a now buf, none)
  else
    (buf, some a)

/-! ## Lemmas about the association-list `Map` model -/

theorem lookupMap_mem {α : Type} (l : List (String × α)) (k : String)
    (v : α) (h : lookupMap l k = some v) : (k, v) ∈ l := by
  induction l with
  | nil => simp [lookupMap] at h
  | cons hd tl ih =>
    obtain ⟨k1, v1⟩ := hd
    by_cases hk : k1 = k
    · subst hk
      simp [lookupMap] at h
      simp [h]
    · simp [lookupMap, hk] at h
      exact List.mem_cons_of_mem _ (ih h)

theorem lookupMap_setMap_self {α : Type} (l : List (String × α))
    (k : String) (v : α) : lookupMap (setMap l k v) k = some v := by
  induction l with
  | nil => simp [setMap, lookupMap]
  | cons hd tl ih =>
    obtain ⟨k1, v1⟩ := hd
    by_cases hk : k1 = k
    · simp [setMap, hk, lookupMap]
    · simp [setMap, hk, lookupMap, ih]

theorem lookupMap_setMap_ne {α : Type} (l : List (String × α))
    (k k' : String) (v : α) (h : k' ≠ k) :
    lookupMap (setMap l k v) k' = lookupMap l k' := by
  have hkk : ¬(k = k') := fun hc => h hc.symm
  induction l with
  | nil => simp [setMap, lookupMap, hkk]
  | cons hd tl ih =>
    obtain ⟨k1, v1⟩ := hd
    by_cases hk : k1 = k
    · subst hk
      simp [setMap, lookupMap, hkk]
    · simp [setMap, hk, lookupMap, ih]

theorem mem_setMap {α : Type} (l : List (String × α)) (k : String)
    (v : α) (p : String × α) (h : p ∈ setMap l k v) :
    p ∈ l ∨ p = (k, v) := by
  induction l with
  | nil => simpa [setMap] using h
  | cons hd tl ih =>
    obtain ⟨k1, v1⟩ := hd
    by_cases hk : k1 = k
    · simp [setMap, hk] at h
      rcases h with h | h
      · exact Or.inr (by simp [h])
      · exact Or.inl (List.mem_cons_of_mem _ h)
    · simp [setMap, hk] at h
      rcases h with h | h
      · exact Or.inl (by simp [h])
      · rcases ih h with h1 | h1
        · exact Or.inl (List.mem_cons_of_mem _ h1)
        · exact Or.inr h1

theorem lookupMap_eq_none_of_not_mem {α : Type} (l : List (String × α))
    (k : String) (h : k ∉ l.map Prod.fst) : lookupMap l k = none := by
  induction l with
  | nil => rfl
  | cons hd tl ih =>
    obtain ⟨k1, v1⟩ := hd
    simp only [List.map_cons, List.mem_cons, not_or] at h
    rw [lookupMap, if_neg (fun hc : k1 = k => h.1 hc.symm)]
    exact ih h.2

theorem lookupMap_delMap_self {α : Type} (l : List (String × α))
    (k : String) (hnd : (l.map Prod.fst).Nodup) :
    lookupMap (delMap l k) k = none := by
  induction l with
  | nil => rfl
  | cons hd tl ih =>
    obtain ⟨k1, v1⟩ := hd
    simp only [List.map_cons, List.nodup_cons] at hnd
    by_cases hk : k1 = k
    · subst hk
      simp only [delMap, if_pos rfl]
      exact lookupMap_eq_none_of_not_mem tl k1 hnd.1
    · simp only [delMap, if_neg hk, lookupMap, if_neg hk]
      exact ih hnd.2

theorem sumMap_setMap_some {α : Type} (f : α → ℚ) (l : List (String × α))
    (k : String) (v e : α) (h : lookupMap l k = some e) :
    ((setMap l k v).map (fun p => f p.2)).sum
      = (l.map (fun p => f p.2)).sum - f e + f v := by
  induction l with
  | nil => simp [lookupMap] at h
  | cons hd tl ih =>
    obtain ⟨k1, v1⟩ := hd
    by_cases hk : k1 = k
    · subst hk
      simp [lookupMap] at h
      subst h
      simp [setMap]
      ring
    · simp [lookupMap, hk] at h
      simp [setMap, hk, ih h]
      ring

theorem sumMap_setMap_none {α : Type} (f : α → ℚ) (l : List (String × α))
    (k : String) (v : α) (h : lookupMap l k = none) :
    ((setMap l k v).map (fun p => f p.2)).sum
      = (l.map (fun p => f p.2)).sum + f v := by
  induction l with
  | nil => simp [setMap]
  | cons hd tl ih =>
    obtain ⟨k1, v1⟩ := hd
    by_cases hk : k1 = k
    · simp [lookupMap, hk] at h
    · simp [lookupMap, hk] at h
      simp [setMap, hk, ih h]
      ring

theorem sumMap_delMap_some {α : Type} (f : α → ℚ) (l : List (String × α))
    (k : String) (e : α) (h : lookupMap l k = some e) :
    ((delMap l k).map (fun p => f p.2)).sum
      = (l.map (fun p => f p.2)).sum - f e := by
  induction l with
  | nil => simp [lookupMap] at h
  | cons hd tl ih =>
    obtain ⟨k1, v1⟩ := hd
    by_cases hk : k1 = k
    · subst hk
      simp [lookupMap] at h
      subst h
      simp [delMap]
    · simp [lookupMap, hk] at h
      simp [delMap, hk, ih h]
      ring

/-! ## C8 — dequeue-loop routing -/

/-- C8: when aggregation is enabled, the executor's dequeue loop routes an
activity to the aggregation buffer if and only if its side is `BUY` and its
`usdcSize` is strictly below `minTotalUsd` (1.00); every `SELL` and every
`BUY` with `usdcSize ≥ 1.00` bypasses the buffer and is executed
immediately. -/
theorem dequeue_routing_c8 (a : QueueActivity) (now : ℚ) (buf : AggBuffer) :
    ((dequeueStep true a now buf).2 = none
      ↔ a.side = "BUY" ∧ a.usdcSize < minTotalUsd)
    ∧ (a.side = "BUY" ∧ a.usdcSize < minTotalUsd →
        dequeueStep true a now buf = (addToAggregationBuffer a now buf, none))
    ∧ (a.side = "SELL" ∨ minTotalUsd ≤ a.usdcSize →
        dequeueStep true a now buf = (buf, some a)) := by
  by_cases h : a.side = "BUY" ∧ a.usdcSize < minTotalUsd
  · have hstep : dequeueStep true a now buf
        = (addToAggregationBuffer a now buf, none) := by
      unfold dequeueStep
      rw [if_pos ⟨rfl, h⟩]
    refine ⟨by simp [hstep, h], fun _ => hstep, fun hb => ?_⟩
    rcases hb with hb | hb
    · rw [hb] at h
      simp at h
    · exact absurd h.2 (not_lt.mpr hb)
  · have hstep : dequeueStep true a now buf = (buf, some a) := by
      unfold dequeueStep
      rw [if_neg (by simpa using h)]
    refine ⟨?_, fun hc => absurd hc h, fun _ => hstep⟩
    rw [hstep]
    simpa using h

/-- Witness for C8 at a concrete sub-threshold BUY. -/
theorem dequeue_routing_c8_witness :
    (dequeueStep true
        { transactionHash := none, userAddress := "u", conditionId := "c",
          asset := "a", side := "BUY", price := 1/2, size := 1,
          usdcSize := 2/5, timestamp := 0, slug := none, eventSlug := none }
        0 []).2 = none := by
  exact (dequeue_routing_c8
    { transactionHash := none, userAddress := "u", conditionId := "c",
      asset := "a", side := "BUY", price := 1/2, size := 1,
      usdcSize := 2/5, timestamp := 0, slug := none, eventSlug := none }
    0 []).1.mpr ⟨rfl, by norm_num [minTotalUsd]⟩

/-! ## Dedup-cache helper lemmas -/

theorem evictExpired_entries (n : ℚ) (c : DedupCache) :
    (evictExpired n c).entries
      = c.entries.filter (fun e => decide (n - e.2 ≤ c.ttlMs)) := rfl

theorem evictExpired_ttlMs (n : ℚ) (c : DedupCache) :
    (evictExpired n c).ttlMs = c.ttlMs := rfl

theorem evictExpired_maxEntries (n : ℚ) (c : DedupCache) :
    (evictExpired n c).maxEntries = c.maxEntries := rfl

/-- `checkAndRemember` with its `let`-bindings expanded. -/
theorem checkAndRemember_eq (c : DedupCache) (k : String) (n : ℚ) :
    checkAndRemember c k n =
      if ((evictExpired n c).entries.any fun e => decide (e.1 = k)) = true
      then (false, evictExpired n c)
      else (true, { evictExpired n c with entries :=
        if ((evictExpired n c).entries ++ [(k, n)]).length > c.maxEntries then
          match (evictExpired n c).entries ++ [(k, n)] with
          | [] => []
          | (k0, t0) :: rest => if k0 = "" then (k0, t0) :: rest else rest
        else (evictExpired n c).entries ++ [(k, n)] }) := rfl

theorem checkAndRemember_config (c : DedupCache) (k : String) (n : ℚ) :
    (checkAndRemember c k n).2.ttlMs = c.ttlMs
    ∧ (checkAndRemember c k n).2.maxEntries = c.maxEntries := by
  refine ⟨?_, ?_⟩ <;> rw [checkAndRemember_eq] <;> split <;> rfl

theorem checkAndRemember_false_of_mem (c : DedupCache) (k : String)
    (n t : ℚ) (hmem : (k, t) ∈ c.entries) (ht : n - t ≤ c.ttlMs) :
    (checkAndRemember c k n).1 = false := by
  have hin : (k, t) ∈ (evictExpired n c).entries := by
    rw [evictExpired_entries]
    exact List.mem_filter.mpr ⟨hmem, by simpa using ht⟩
  rw [checkAndRemember_eq,
    if_pos (List.any_eq_true.mpr ⟨(k, t), hin, by simp⟩)]

theorem mem_after_remember_true (c : DedupCache) (k : String) (n : ℚ)
    (hmax : 1 ≤ c.maxEntries)
    (h : (checkAndRemember c k n).1 = true) :
    (k, n) ∈ (checkAndRemember c k n).2.entries := by
  rw [checkAndRemember_eq] at h ⊢
  by_cases hany :
      ((evictExpired n c).entries.any fun e => decide (e.1 = k)) = true
  · rw [if_pos hany] at h
    exact absurd h (by simp)
  · rw [if_neg hany]
    dsimp only
    cases hc1 : (evictExpired n c).entries with
    | nil =>
      split
      next hcond =>
        exfalso
        simp only [List.nil_append, List.length_cons, List.length_nil]
          at hcond
        omega
      next _ => simp
    | cons hd rest =>
      obtain ⟨k0, t0⟩ := hd
      split
      next hcond =>
        show (k, n) ∈
          (if k0 = "" then (k0, t0) :: (rest ++ [(k, n)])
           else rest ++ [(k, n)])
        split <;> simp
      next _ => simp

theorem mem_after_remember (c : DedupCache) (k : String) (n : ℚ)
    (hmax : 1 ≤ c.maxEntries) (httl : 0 ≤ c.ttlMs) :
    ∃ t, (k, t) ∈ (checkAndRemember c k n).2.entries ∧ n - t ≤ c.ttlMs := by
  by_cases hany :
      ((evictExpired n c).entries.any fun e => decide (e.1 = k)) = true
  · obtain ⟨e, hmem, he⟩ := List.any_eq_true.mp hany
    obtain ⟨ek, et⟩ := e
    simp only [decide_eq_true_eq] at he
    subst he
    refine ⟨et, ?_, ?_⟩
    · rw [checkAndRemember_eq, if_pos hany]
      exact hmem
    · have h2 := (List.mem_filter.mp (by
        rw [evictExpired_entries] at hmem
        exact hmem)).2
      simpa using h2
  · have htrue : (checkAndRemember c k n).1 = true := by
      rw [checkAndRemember_eq, if_neg hany]
    exact ⟨n, mem_after_remember_true c k n hmax htrue, by linarith⟩

theorem remember_again_false (c : DedupCache) (k : String) (n : ℚ)
    (hmax : 1 ≤ c.maxEntries) (httl : 0 ≤ c.ttlMs) :
    (checkAndRemember (checkAndRemember c k n).2 k n).1 = false := by
  obtain ⟨t, hmem, ht⟩ := mem_after_remember c k n hmax httl
  have hcfg := checkAndRemember_config c k n
  exact checkAndRemember_false_of_mem _ k n t hmem (by rw [hcfg.1]; exact ht)

/-! ## C10 — empty-string transaction hash falls back to the composite key -/

/-- C10: `buildActivityDedupKey` uses the composite fallback key for an
empty-string `transactionHash` just as for an absent one, so an activity
with hash `some ""` and one with hash `none` (all other fields equal) get
the same dedup key, and the second `checkAndRemember` on that key is
suppressed as a duplicate. -/
theorem dedup_key_empty_hash_c10 (a : QueueActivity)
    (ha : a.transactionHash = some "") (c : DedupCache) (now : ℚ)
    (hmax : 1 ≤ c.maxEntries) (httl : 0 ≤ c.ttlMs) :
    buildActivityDedupKey a = compositeDedupKey a
    ∧ buildActivityDedupKey { a with transactionHash := none }
        = buildActivityDedupKey a
    ∧ (checkAndRemember (checkAndRemember c (buildActivityDedupKey a) now).2
        (buildActivityDedupKey { a with transactionHash := none }) now).1
      = false := by
  have h1 : buildActivityDedupKey a = compositeDedupKey a := by
    simp [buildActivityDedupKey, ha]
  have h2 : buildActivityDedupKey { a with transactionHash := none }
      = compositeDedupKey a := by
    simp [buildActivityDedupKey, compositeDedupKey]
  refine ⟨h1, h2.trans h1.symm, ?_⟩
  rw [h2.trans h1.symm]
  exact remember_again_false c (buildActivityDedupKey a) now hmax httl

/-- Witness for C10 at a concrete activity and a fresh default cache. -/
theorem dedup_key_empty_hash_c10_witness :
    (checkAndRemember
      (checkAndRemember (mkDedupCache 60000)
        (buildActivityDedupKey
          { transactionHash := some "", userAddress := "u",
            conditionId := "c", asset := "a", side := "BUY", price := 1/2,
            size := 1, usdcSize := 2/5, timestamp := 0, slug := none,
            eventSlug := none }) 0).2
      (buildActivityDedupKey
        { transactionHash := none, userAddress := "u", conditionId := "c",
          asset := "a", side := "BUY", price := 1/2, size := 1,
          usdcSize := 2/5, timestamp := 0, slug := none,
          eventSlug := none }) 0).1 = false := by
  exact (dedup_key_empty_hash_c10
    { transactionHash := some "", userAddress := "u", conditionId := "c",
      asset := "a", side := "BUY", price := 1/2, size := 1,
      usdcSize := 2/5, timestamp := 0, slug := none, eventSlug := none }
    rfl (mkDedupCache 60000) 0 (by norm_num [mkDedupCache])
    (by norm_num [mkDedupCache])).2.2

/-! ## C1 — distributor delivery and backlog drain -/

theorem flushGo_sends (ports : List Nat) (l : List QueueActivity) (rr : Nat) :
    (flushGo ports l rr).2.map Prod.snd = l := by
  induction l generalizing rr with
  | nil => rfl
  | cons a rest ih => simp [flushGo, ih]

theorem flushGo_workers (ports : List Nat) (hne : ports ≠ [])
    (l : List QueueActivity) (rr : Nat) :
    ∀ p ∈ (flushGo ports l rr).2, p.1 ∈ ports := by
  induction l generalizing rr with
  | nil => simp [flushGo]
  | cons a rest ih =>
    intro p hp
    simp only [flushGo, List.mem_cons] at hp
    rcases hp with hp | hp
    · subst hp
      have hlen : 0 < ports.length := List.length_pos.mpr hne
      have hidx : rr % ports.length < ports.length := Nat.mod_lt _ hlen
      rw [List.getD_eq_getElem ports 0 hidx]
      exact List.getElem_mem hidx
    · exact ih _ p hp

/-- C1: a published activity is sent to exactly one registered worker with
the backlog untouched when the registry is non-empty, and is appended to
the FIFO backlog when it is empty; when `registerWorkerEndpoint` then adds
a worker, the whole backlog is drained — each backlogged activity is sent
exactly once, in order, to a registered worker, and the backlog ends
empty. -/
theorem distributor_delivery_c1 (s : DistState) (a : QueueActivity)
    (id : Nat) :
    (s.ports ≠ [] →
      ∃ w, w ∈ s.ports ∧ publishActivityToWorkers a s
        = ({ s with rr := (s.rr + 1) % s.ports.length }, [(w, a)]))
    ∧ (s.ports = [] →
      publishActivityToWorkers a s
        = ({ s with backlog := s.backlog ++ [a] }, []))
    ∧ ((registerWorkerEndpoint id s).1.backlog = []
      ∧ (registerWorkerEndpoint id s).2.map Prod.snd = s.backlog
      ∧ ∀ p ∈ (registerWorkerEndpoint id s).2, p.1 ∈ s.ports ++ [id]) := by
  refine ⟨?_, ?_, ?_⟩
  · intro hne
    have hlen : 0 < s.ports.length := List.length_pos.mpr hne
    have hidx : s.rr % s.ports.length < s.ports.length := Nat.mod_lt _ hlen
    refine ⟨s.ports.getD (s.rr % s.ports.length) 0, ?_, ?_⟩
    · rw [List.getD_eq_getElem s.ports 0 hidx]
      exact List.getElem_mem hidx
    · simp [publishActivityToWorkers, pickWorker, hne]
  · intro hempty
    simp [publishActivityToWorkers, pickWorker, hempty]
  · have hne : s.ports ++ [id] ≠ [] := by simp
    unfold registerWorkerEndpoint flushBacklog
    cases hb : s.backlog with
    | nil => simp
    | cons b rest =>
      simp only [hb]
      rw [if_neg (by simp), if_neg hne]
      refine ⟨rfl, ?_, ?_⟩
      · exact flushGo_sends _ _ _
      · exact flushGo_workers _ hne _ _

/-- Witness for C1: one registered worker, one queued activity, one
backlogged activity. -/
theorem distributor_delivery_c1_witness :
    let a0 : QueueActivity :=
      { transactionHash := some "0x01", userAddress := "u",
        conditionId := "c", asset := "a", side := "BUY", price := 1/2,
        size := 1, usdcSize := 2, timestamp := 0, slug := none,
        eventSlug := none }
    let s0 : DistState := { ports := [7], rr := 0, backlog := [a0] }
    (∃ w, w ∈ s0.ports ∧ publishActivityToWorkers a0 s0
        = ({ s0 with rr := (s0.rr + 1) % s0.ports.length }, [(w, a0)]))
    ∧ (registerWorkerEndpoint 9 s0).1.backlog = [] := by
  intro a0 s0
  exact ⟨(distributor_delivery_c1 s0 a0 9).1 (by simp [s0]),
    (distributor_delivery_c1 s0 a0 9).2.2.1⟩

/-! ## C9 — monitor timestamp normalisation and age filter -/

/-- C9: the monitor treats a numeric timestamp strictly above `10¹²` as
milliseconds, any other number (including exactly `10¹²`) as seconds, a
string as its parsed date, and drops unparseable strings and non-number
non-string values unconditionally; assuming the wall clock is past the age
threshold (`tooOldSeconds·1000 < nowMs`, always true for a real clock), an
activity is dropped exactly when `nowMs − activityMs > tooOldSeconds·1000`,
so one whose age equals the threshold exactly is kept. -/
theorem monitor_timestamp_c9 (nowMs tooOldSeconds : ℚ)
    (hclock : tooOldSeconds * 1000 < nowMs) :
    (∀ x : ℚ, 10 ^ 12 < x → normalizeActivityMs (.num x) = x)
    ∧ (∀ x : ℚ, x ≤ 10 ^ 12 → normalizeActivityMs (.num x) = x * 1000)
    ∧ (∀ p : ℚ, normalizeActivityMs (.str (some p)) = p)
    ∧ monitorKeeps (.str none) nowMs tooOldSeconds = false
    ∧ monitorKeeps .other nowMs tooOldSeconds = false
    ∧ (∀ ts : TsValue, monitorKeeps ts nowMs tooOldSeconds = true
        ↔ nowMs - normalizeActivityMs ts ≤ tooOldSeconds * 1000) := by
  refine ⟨?_, ?_, fun p => rfl, ?_, ?_, ?_⟩
  · intro x hx
    simp [normalizeActivityMs, hx]
  · intro x hx
    simp [normalizeActivityMs, not_lt.mpr hx]
  · simp [monitorKeeps, normalizeActivityMs]
  · simp [monitorKeeps, normalizeActivityMs]
  · intro ts
    unfold monitorKeeps
    constructor
    · intro h
      simp only [decide_eq_true_eq, not_or, not_lt] at h
      rcases h with ⟨_, h2⟩
      · assumption
    · intro h
      have hne : normalizeActivityMs ts ≠ 0 := by
        intro h0
        rw [h0] at h
        simp at h
        linarith
      simp only [decide_eq_true_eq, not_or, not_lt]
      exact ⟨hne, h⟩

/-- Witness for C9 at concrete values: timestamp exactly `10¹²` is scaled
as seconds, `10¹² + 1` kept as milliseconds, and an activity exactly at the
age threshold is kept. -/
theorem monitor_timestamp_c9_witness :
    normalizeActivityMs (.num (10 ^ 12)) = 10 ^ 12 * 1000
    ∧ normalizeActivityMs (.num (10 ^ 12 + 1)) = 10 ^ 12 + 1
    ∧ monitorKeeps .other (10 ^ 13) 10 = false
    ∧ (monitorKeeps (.num (10 ^ 10)) (10 ^ 13 + 10 * 1000) 10 = true
        ↔ (10 ^ 13 + 10 * 1000 : ℚ) - normalizeActivityMs (.num (10 ^ 10))
            ≤ 10 * 1000) := by
  have h1 := monitor_timestamp_c9 (10 ^ 13) 10 (by norm_num)
  have h2 := monitor_timestamp_c9 (10 ^ 13 + 10 * 1000) 10 (by norm_num)
  exact ⟨h1.2.1 _ (by norm_num), h1.1 _ (by norm_num), h1.2.2.2.2.1,
    h2.2.2.2.2.2 _⟩

/-! ## C2 — window-expiry flush of the aggregation buffer -/

/-- Characterisation of `getReadyAggregatedTrades`: the ready list is
exactly the expired records meeting the minimum, in buffer order, and the
remaining buffer is exactly the unexpired records. -/
theorem getReady_eq (now ws : ℚ) (buf : AggBuffer) :
    getReadyAggregatedTrades now ws buf
      = ((buf.filter (fun p =>
            decide (now - p.2.firstTradeTime ≥ ws * 1000)
            && decide (p.2.totalUsdcSize ≥ minTotalUsd))).map Prod.snd,
         buf.filter (fun p =>
            !decide (now - p.2.firstTradeTime ≥ ws * 1000))) := by
  induction buf with
  | nil => rfl
  | cons hd rest ih =>
    obtain ⟨k, agg⟩ := hd
    by_cases hexp : now - agg.firstTradeTime ≥ ws * 1000
    · by_cases hbig : agg.totalUsdcSize ≥ minTotalUsd
      · simp [getReadyAggregatedTrades, hexp, hbig, ih, List.filter]
      · simp [getReadyAggregatedTrades, hexp, hbig, ih, List.filter]
    · simp [getReadyAggregatedTrades, hexp, ih, List.filter]

/-- C2: at a flusher tick, the orders submitted by `doAggregatedTrading`
are exactly one synthetic order per expired record whose total meets
`minTotalUsd` (1.00) — the first contributor's fields with `usdcSize`,
`price` and `side` replaced by the aggregated values — expired records
below the minimum submit nothing, every expired record is deleted from the
buffer (so no contributing activity can be submitted again), and unexpired
records stay. -/
theorem aggregation_flush_c2 (now ws : ℚ) (buf : AggBuffer) :
    submittedOrders (getReadyAggregatedTrades now ws buf).1
      = (buf.filter (fun p =>
            decide (now - p.2.firstTradeTime ≥ ws * 1000)
            && decide (p.2.totalUsdcSize ≥ minTotalUsd))).map
          (fun p => syntheticOf p.2)
    ∧ (∀ p ∈ buf, now - p.2.firstTradeTime ≥ ws * 1000 →
        p ∉ (getReadyAggregatedTrades now ws buf).2)
    ∧ (∀ p ∈ buf, now - p.2.firstTradeTime ≥ ws * 1000 →
        p.2.totalUsdcSize ≥ minTotalUsd →
        p.2 ∈ (getReadyAggregatedTrades now ws buf).1)
    ∧ (∀ p ∈ buf, now - p.2.firstTradeTime ≥ ws * 1000 →
        p.2.totalUsdcSize < minTotalUsd →
        p.2 ∉ (getReadyAggregatedTrades now ws buf).1)
    ∧ (∀ p ∈ buf, ¬(now - p.2.firstTradeTime ≥ ws * 1000) →
        p ∈ (getReadyAggregatedTrades now ws buf).2)
    ∧ (∀ agg ∈ (getReadyAggregatedTrades now ws buf).1,
        ∀ t0 rest0, agg.trades = t0 :: rest0 →
          syntheticOf agg
            = { t0 with
                usdcSize := agg.totalUsdcSize
                price := agg.averagePrice
                side := agg.side }) := by
  rw [getReady_eq]
  refine ⟨by simp [submittedOrders], ?_, ?_, ?_, ?_, ?_⟩
  · intro p hp hexp hmem
    have h2 := (List.mem_filter.mp hmem).2
    simp [hexp] at h2
  · intro p hp hexp hbig
    exact List.mem_map.mpr ⟨p, List.mem_filter.mpr (by simp [hp, hexp, hbig]),
      rfl⟩
  · intro p hp hexp hsmall hmem
    obtain ⟨q, hq, hqe⟩ := List.mem_map.mp hmem
    have h2 := (List.mem_filter.mp hq).2
    simp only [Bool.and_eq_true, decide_eq_true_eq] at h2
    rw [hqe] at h2
    exact absurd h2.2 (not_le.mpr hsmall)
  · intro p hp hexp
    exact List.mem_filter.mpr (by simp [hp, hexp])
  · intro agg _ t0 rest0 htr
    simp [syntheticOf, htr]

/-- Witness for C2: a one-record buffer whose window expired with a
sufficient total is flushed into exactly one synthetic order. -/
theorem aggregation_flush_c2_witness :
    let t0 : QueueActivity :=
      { transactionHash := none, userAddress := "u", conditionId := "c",
        asset := "a", side := "BUY", price := 1/2, size := 1,
        usdcSize := 2/5, timestamp := 0, slug := none, eventSlug := none }
    let agg : AggregatedTrade :=
      { userAddress := "u", conditionId := "c", asset := "a",
        side := "BUY", slug := none, eventSlug := none, trades := [t0],
        totalUsdcSize := 6/5, averagePrice := 1/2, firstTradeTime := 0,
        lastTradeTime := 0 }
    agg ∈ (getReadyAggregatedTrades 2000 2 [("u:c:a:BUY", agg)]).1
    ∧ ("u:c:a:BUY", agg)
        ∉ (getReadyAggregatedTrades 2000 2 [("u:c:a:BUY", agg)]).2 := by
  intro t0 agg
  refine ⟨(aggregation_flush_c2 2000 2 [("u:c:a:BUY", agg)]).2.2.1
      ("u:c:a:BUY", agg) (by simp) (by norm_num [agg]) (by
        norm_num [agg, minTotalUsd]),
    (aggregation_flush_c2 2000 2 [("u:c:a:BUY", agg)]).2.1
      ("u:c:a:BUY", agg) (by simp) (by norm_num [agg])⟩

/-! ## C7 — notional-weighted average invariant of the aggregation buffer -/

/-- The per-record invariant of the aggregation buffer: `totalUsdcSize` is
the sum of the contributing trades' `usdcSize`, and whenever it is
positive, `averagePrice` is the notional-weighted mean
`Σ(usdcSize·price) / Σ(usdcSize)` over the contributing trades. -/
def AggInv (buf : AggBuffer) : Prop :=
  ∀ p ∈ buf,
    p.2.totalUsdcSize = (p.2.trades.map (fun t => t.usdcSize)).sum
    ∧ (p.2.totalUsdcSize > 0 →
        p.2.averagePrice
          = (p.2.trades.map (fun t => t.usdcSize * t.price)).sum
              / p.2.totalUsdcSize)

/-- C7: `addToAggregationBuffer` preserves the weighted-average invariant,
and `firstTradeTime` of every record is unchanged from before the call
(or equals `now` for a record the call just created). -/
theorem aggregation_average_c7 (trade : QueueActivity) (now : ℚ)
    (buf : AggBuffer) (h : AggInv buf) :
    AggInv (addToAggregationBuffer trade now buf)
    ∧ (∀ k agg1,
        lookupMap (addToAggregationBuffer trade now buf) k = some agg1 →
        (∃ agg0, lookupMap buf k = some agg0
          ∧ agg1.firstTradeTime = agg0.firstTradeTime)
        ∨ (lookupMap buf k = none ∧ agg1.firstTradeTime = now)) := by
  cases hlk : lookupMap buf (getAggregationKey trade) with
  | some existing =>
    have hext := h _ (lookupMap_mem _ _ _ hlk)
    simp only [addToAggregationBuffer, hlk]
    constructor
    · intro p hp
      rcases mem_setMap _ _ _ _ hp with hmem | heq
      · exact h p hmem
      · subst heq
        dsimp only
        constructor
        · rw [hext.1]
          simp [List.map_append, List.sum_append]
        · intro hpos
          rw [if_pos hpos]
    · intro k agg1 hlk1
      by_cases hk : k = getAggregationKey trade
      · subst hk
        rw [lookupMap_setMap_self] at hlk1
        refine Or.inl ⟨existing, hlk, ?_⟩
        cases hlk1
        rfl
      · rw [lookupMap_setMap_ne _ _ _ _ hk] at hlk1
        exact Or.inl ⟨agg1, hlk1, rfl⟩
  | none =>
    simp only [addToAggregationBuffer, hlk]
    constructor
    · intro p hp
      rcases mem_setMap _ _ _ _ hp with hmem | heq
      · exact h p hmem
      · subst heq
        dsimp only
        refine ⟨by simp, ?_⟩
        intro hpos
        have hne : trade.usdcSize ≠ 0 := by
          intro h0
          rw [h0] at hpos
          exact lt_irrefl 0 hpos
        simp [mul_div_cancel_left₀ _ hne]
    · intro k agg1 hlk1
      by_cases hk : k = getAggregationKey trade
      · subst hk
        rw [lookupMap_setMap_self] at hlk1
        refine Or.inr ⟨hlk, ?_⟩
        cases hlk1
        rfl
      · rw [lookupMap_setMap_ne _ _ _ _ hk] at hlk1
        exact Or.inl ⟨agg1, hlk1, rfl⟩

/-- Witness for C7: adding one trade to an empty buffer yields a buffer
satisfying the weighted-average invariant. -/
theorem aggregation_average_c7_witness :
    AggInv (addToAggregationBuffer
      { transactionHash := none, userAddress := "u", conditionId := "c",
        asset := "a", side := "BUY", price := 1/2, size := 1,
        usdcSize := 2/5, timestamp := 0, slug := none, eventSlug := none }
      0 []) := by
  exact (aggregation_average_c7
    { transactionHash := none, userAddress := "u", conditionId := "c",
      asset := "a", side := "BUY", price := 1/2, size := 1,
      usdcSize := 2/5, timestamp := 0, slug := none, eventSlug := none }
    0 [] (by intro p hp; simp at hp)).1

/-! ## C6 — paper-trader refusal, no-op on refusal, position deletion -/

/-- C6: `executeTrade` returns `false` and leaves the state untouched
exactly when a BUY's `usdcSize` exceeds the balance, or a SELL has no
position or asks for more units than held; an accepted SELL of exactly the
held size deletes the position from the map. -/
theorem paper_trader_refusal_c6 (p : PaperState) (t : QueueActivity) :
    (t.side = "BUY" →
      ((executeTrade p t).1 = false ↔ p.balance < t.usdcSize)
      ∧ ((executeTrade p t).1 = false → (executeTrade p t).2 = p))
    ∧ (t.side = "SELL" →
      ((executeTrade p t).1 = false ↔
        lookupMap p.positions t.conditionId = none
        ∨ ∃ e, lookupMap p.positions t.conditionId = some e
            ∧ e.size < t.size)
      ∧ ((executeTrade p t).1 = false → (executeTrade p t).2 = p)
      ∧ (∀ e, lookupMap p.positions t.conditionId = some e →
          e.size = t.size → (p.positions.map Prod.fst).Nodup →
          (executeTrade p t).1 = true
          ∧ lookupMap (executeTrade p t).2.positions t.conditionId
              = none)) := by
  constructor
  · intro hb
    by_cases hbal : p.balance < t.usdcSize
    · have hr : executeTrade p t = (false, p) := by
        simp only [executeTrade]
        rw [if_pos hb, if_pos hbal]
      rw [hr]
      exact ⟨by simp [hbal], fun _ => rfl⟩
    · have hr : (executeTrade p t).1 = true := by
        simp only [executeTrade]
        rw [if_pos hb, if_neg hbal]
      rw [hr]
      exact ⟨by simp [hbal], by simp⟩
  · intro hs
    have hnb : ¬t.side = "BUY" := by
      rw [hs]
      decide
    cases hlk : lookupMap p.positions t.conditionId with
    | none =>
      have hr : executeTrade p t = (false, p) := by
        simp only [executeTrade]
        rw [if_neg hnb, hlk]
      rw [hr]
      refine ⟨⟨fun _ => Or.inl rfl, fun _ => rfl⟩, fun _ => rfl, ?_⟩
      intro e he
      cases he
    | some e =>
      by_cases hsz : e.size < t.size
      · have hr : executeTrade p t = (false, p) := by
          simp only [executeTrade]
          rw [if_neg hnb, hlk]
          dsimp only
          rw [if_pos hsz]
        rw [hr]
        refine ⟨⟨fun _ => Or.inr ⟨e, rfl, hsz⟩, fun _ => rfl⟩,
          fun _ => rfl, ?_⟩
        intro e1 he1 hsize _
        cases he1
        exact absurd hsz (by rw [hsize]; exact lt_irrefl _)
      · have hr : executeTrade p t
            = (true,
               { balance := p.balance + t.usdcSize
                 positions :=
                  if e.size - t.size = 0 then delMap p.positions t.conditionId
                  else setMap p.positions t.conditionId
                    { e with
                      size := e.size - t.size
                      invested := e.invested - t.usdcSize } }) := by
          simp only [executeTrade]
          rw [if_neg hnb, hlk]
          dsimp only
          rw [if_neg hsz]
        refine ⟨?_, ?_, ?_⟩
        · rw [hr]
          constructor
          · intro hfalse
            exact absurd hfalse (by simp)
          · rintro (hnone | ⟨e1, he1, hlt⟩)
            · cases hnone
            · cases he1
              exact absurd hlt hsz
        · rw [hr]
          intro hfalse
          exact absurd hfalse (by simp)
        · intro e1 he1 hsize hnd
          cases he1
          rw [hr]
          refine ⟨rfl, ?_⟩
          have hz : e.size - t.size = 0 := by
            rw [hsize]
            exact sub_self _
          dsimp only
          rw [if_pos hz]
          exact lookupMap_delMap_self _ _ hnd

/-- Witness for C6: a SELL with no position is refused and leaves the
state unchanged, and a SELL of the full held size deletes the position. -/
theorem paper_trader_refusal_c6_witness :
    let sell : QueueActivity :=
      { transactionHash := none, userAddress := "u", conditionId := "c",
        asset := "a", side := "SELL", price := 1/2, size := 2,
        usdcSize := 1, timestamp := 0, slug := none, eventSlug := none }
    let pos : PaperPosition :=
      { conditionId := "c", asset := "a", size := 2, invested := 1,
        avgPrice := 1/2 }
    let p0 : PaperState := { balance := 0, positions := [] }
    let p1 : PaperState := { balance := 9, positions := [("c", pos)] }
    ((executeTrade p0 sell).1 = false ∧ (executeTrade p0 sell).2 = p0)
    ∧ ((executeTrade p1 sell).1 = true
        ∧ lookupMap (executeTrade p1 sell).2.positions "c" = none) := by
  intro sell pos p0 p1
  have h0 := (paper_trader_refusal_c6 p0 sell).2 rfl
  have h1 := (paper_trader_refusal_c6 p1 sell).2 rfl
  refine ⟨⟨h0.1.mpr (Or.inl rfl), h0.2.1 (h0.1.mpr (Or.inl rfl))⟩, ?_⟩
  exact h1.2.2 pos rfl rfl (by simp)

/-! ## C5 — paper-trader balance/invested conservation -/

theorem sumInv_setMap_some (l : List (String × PaperPosition)) (k : String)
    (v e : PaperPosition) (h : lookupMap l k = some e) :
    ((setMap l k v).map (fun q => q.2.invested)).sum
      = (l.map (fun q => q.2.invested)).sum - e.invested + v.invested :=
  sumMap_setMap_some (fun pos => pos.invested) l k v e h

theorem sumInv_setMap_none (l : List (String × PaperPosition)) (k : String)
    (v : PaperPosition) (h : lookupMap l k = none) :
    ((setMap l k v).map (fun q => q.2.invested)).sum
      = (l.map (fun q => q.2.invested)).sum + v.invested :=
  sumMap_setMap_none (fun pos => pos.invested) l k v h

theorem sumInv_delMap_some (l : List (String × PaperPosition)) (k : String)
    (e : PaperPosition) (h : lookupMap l k = some e) :
    ((delMap l k).map (fun q => q.2.invested)).sum
      = (l.map (fun q => q.2.invested)).sum - e.invested :=
  sumMap_delMap_some (fun pos => pos.invested) l k e h

/-- C5 as amended: `balance + Σ invested` is invariant under every accepted
BUY; under an accepted SELL it is invariant when the position is not fully
closed, and grows by `usdcSize − invested_before` — which equals
`usdcSize − size·avgPrice_before` when `invested = size·avgPrice` held —
exactly when the SELL empties the position; the balance of an accepted
trade never becomes negative (given a non-negative prior balance and
`usdcSize`). -/
theorem paper_trader_sum_c5 (p : PaperState) (t : QueueActivity) :
    (t.side = "BUY" → (executeTrade p t).1 = true →
      (executeTrade p t).2.balance
        + getUserPortfolioValue (executeTrade p t).2
      = p.balance + getUserPortfolioValue p)
    ∧ (t.side = "SELL" →
      ∀ e, lookupMap p.positions t.conditionId = some e →
        (executeTrade p t).1 = true →
        ((e.size ≠ t.size →
          (executeTrade p t).2.balance
            + getUserPortfolioValue (executeTrade p t).2
          = p.balance + getUserPortfolioValue p)
        ∧ (e.size = t.size →
          (executeTrade p t).2.balance
            + getUserPortfolioValue (executeTrade p t).2
          = p.balance + getUserPortfolioValue p
            + (t.usdcSize - e.invested))
        ∧ (e.size = t.size → e.invested = t.size * e.avgPrice →
          (executeTrade p t).2.balance
            + getUserPortfolioValue (executeTrade p t).2
          = p.balance + getUserPortfolioValue p
            + (t.usdcSize - t.size * e.avgPrice))))
    ∧ (0 ≤ p.balance → 0 ≤ t.usdcSize → (executeTrade p t).1 = true →
        0 ≤ (executeTrade p t).2.balance) := by
  refine ⟨?_, ?_, ?_⟩
  · intro hb hacc
    by_cases hbal : p.balance < t.usdcSize
    · have hf : (executeTrade p t).1 = false := by
        simp only [executeTrade]
        rw [if_pos hb, if_pos hbal]
      rw [hf] at hacc
      cases hacc
    · simp only [executeTrade, getUserPortfolioValue]
      rw [if_pos hb, if_neg hbal]
      dsimp only
      cases hlk : lookupMap p.positions t.conditionId with
      | none =>
        simp only [Option.getD]
        rw [sumInv_setMap_none _ _ _ hlk]
        dsimp only
        ring
      | some e =>
        simp only [Option.getD]
        rw [sumInv_setMap_some _ _ _ e hlk]
        dsimp only
        ring
  · intro hs e hlk hacc
    have hnb : ¬t.side = "BUY" := by
      rw [hs]
      decide
    by_cases hsz : e.size < t.size
    · have hf : (executeTrade p t).1 = false := by
        simp only [executeTrade]
        rw [if_neg hnb, hlk]
        dsimp only
        rw [if_pos hsz]
      rw [hf] at hacc
      cases hacc
    · have hr : executeTrade p t
          = (true,
             { balance := p.balance + t.usdcSize
               positions :=
                if e.size - t.size = 0 then delMap p.positions t.conditionId
                else setMap p.positions t.conditionId
                  { e with
                    size := e.size - t.size
                    invested := e.invested - t.usdcSize } }) := by
        simp only [executeTrade]
        rw [if_neg hnb, hlk]
        dsimp only
        rw [if_neg hsz]
      have hpart : e.size ≠ t.size →
          (executeTrade p t).2.balance
            + getUserPortfolioValue (executeTrade p t).2
          = p.balance + getUserPortfolioValue p := by
        intro hne
        have hz : e.size - t.size ≠ 0 := sub_ne_zero.mpr hne
        rw [hr]
        simp only [getUserPortfolioValue]
        rw [if_neg hz, sumInv_setMap_some _ _ _ e hlk]
        dsimp only
        ring
      have hfull : e.size = t.size →
          (executeTrade p t).2.balance
            + getUserPortfolioValue (executeTrade p t).2
          = p.balance + getUserPortfolioValue p
            + (t.usdcSize - e.invested) := by
        intro heq
        have hz : e.size - t.size = 0 := by
          rw [heq]
          exact sub_self _
        rw [hr]
        simp only [getUserPortfolioValue]
        rw [if_pos hz, sumInv_delMap_some _ _ e hlk]
        ring
      refine ⟨hpart, hfull, ?_⟩
      intro heq hinv
      rw [hfull heq, hinv]
  · intro hbal0 husdc hacc
    by_cases hb : t.side = "BUY"
    · by_cases hbal : p.balance < t.usdcSize
      · have hf : (executeTrade p t).1 = false := by
          simp only [executeTrade]
          rw [if_pos hb, if_pos hbal]
        rw [hf] at hacc
        cases hacc
      · have hr : (executeTrade p t).2.balance = p.balance - t.usdcSize := by
          simp only [executeTrade]
          rw [if_pos hb, if_neg hbal]
        rw [hr]
        exact sub_nonneg.mpr (not_lt.mp hbal)
    · cases hlk : lookupMap p.positions t.conditionId with
      | none =>
        have hf : (executeTrade p t).1 = false := by
          simp only [executeTrade]
          rw [if_neg hb, hlk]
        rw [hf] at hacc
        cases hacc
      | some e =>
        by_cases hsz : e.size < t.size
        · have hf : (executeTrade p t).1 = false := by
            simp only [executeTrade]
            rw [if_neg hb, hlk]
            dsimp only
            rw [if_pos hsz]
          rw [hf] at hacc
          cases hacc
        · have hr : (executeTrade p t).2.balance
              = p.balance + t.usdcSize := by
            simp only [executeTrade]
            rw [if_neg hb, hlk]
            dsimp only
            rw [if_neg hsz]
          rw [hr]
          exact add_nonneg hbal0 husdc

/-- Counterexample to C5 as stated: from a $10 balance, a BUY of $1 at
price 1/2 (2 units) yields the position `{size 2, invested 1, avgPrice
1/2}`; the partial SELL of 1 unit for $0.80 is then accepted, yet
`balance + Σ invested` does not grow by `usdcSize − size·avgPrice_before
= 0.80 − 0.50 = 0.30`: the code subtracts `usdcSize` from `invested`, so
the sum stays at exactly 10. -/
theorem paper_trader_sum_c5_counterexample :
    let buy : QueueActivity :=
      { transactionHash := none, userAddress := "u", conditionId := "c",
        asset := "a", side := "BUY", price := 1/2, size := 2,
        usdcSize := 1, timestamp := 0, slug := none, eventSlug := none }
    let sell : QueueActivity :=
      { transactionHash := none, userAddress := "u", conditionId := "c",
        asset := "a", side := "SELL", price := 4/5, size := 1,
        usdcSize := 4/5, timestamp := 0, slug := none, eventSlug := none }
    let e0 : PaperPosition :=
      { conditionId := "c", asset := "a", size := 2, invested := 1,
        avgPrice := 1/2 }
    let p1 : PaperState := { balance := 9, positions := [("c", e0)] }
    executeTrade { balance := 10, positions := [] } buy = (true, p1)
    ∧ e0.invested = e0.size * e0.avgPrice
    ∧ (executeTrade p1 sell).1 = true
    ∧ ¬((executeTrade p1 sell).2.balance
          + getUserPortfolioValue (executeTrade p1 sell).2
        = p1.balance + getUserPortfolioValue p1
          + (sell.usdcSize - sell.size * e0.avgPrice)) := by
  intro buy sell e0 p1
  have hsell : executeTrade p1 sell
      = (true,
         { balance := 9 + 4/5,
           positions := [("c",
                          { conditionId := "c", asset := "a",
                            size := 2 - 1, invested := 1 - 4/5,
                            avgPrice := 1/2 })] }) := by
    simp [executeTrade, lookupMap, setMap, delMap]
    norm_num
  refine ⟨?_, by norm_num, ?_, ?_⟩
  · simp [executeTrade, lookupMap, setMap]
    norm_num
  · rw [hsell]
  · rw [hsell]
    simp [getUserPortfolioValue]
    norm_num

/-- Witness for the amended C5: the counterexample's partial sell leaves
`balance + Σ invested` exactly unchanged, as the amended claim states. -/
theorem paper_trader_sum_c5_witness :
    let sell : QueueActivity :=
      { transactionHash := none, userAddress := "u", conditionId := "c",
        asset := "a", side := "SELL", price := 4/5, size := 1,
        usdcSize := 4/5, timestamp := 0, slug := none, eventSlug := none }
    let e0 : PaperPosition :=
      { conditionId := "c", asset := "a", size := 2, invested := 1,
        avgPrice := 1/2 }
    let p1 : PaperState := { balance := 9, positions := [("c", e0)] }
    (executeTrade p1 sell).2.balance
        + getUserPortfolioValue (executeTrade p1 sell).2
      = p1.balance + getUserPortfolioValue p1 := by
  intro sell e0 p1
  have hacc : (executeTrade p1 sell).1 = true := by
    simp [executeTrade, lookupMap, setMap, delMap]
  exact ((paper_trader_sum_c5 p1 sell).2.1 rfl e0 rfl hacc).1 (by norm_num)

/-! ## C3 — functional contract of `checkAndRemember` and `size` -/

/-- Counterexample to C3 as stated: with the cache holding only the
empty-string key at capacity 1, `checkAndRemember "x"` pushes the count to
2 > maxEntries, but the JS truthiness guard `if (oldestKey)` skips the
FIFO eviction because the oldest key is `""`, so the oldest-inserted entry
is not removed. -/
theorem dedup_cache_c3_counterexample :
    let c0 : DedupCache :=
      { entries := [("", 100)], ttlMs := 1000, maxEntries := 1 }
    (checkAndRemember c0 "x" 100).1 = true
    ∧ (checkAndRemember c0 "x" 100).2.entries = [("", 100), ("x", 100)]
    ∧ (checkAndRemember c0 "x" 100).2.entries.length > c0.maxEntries
    ∧ ("", 100) ∈ (checkAndRemember c0 "x" 100).2.entries := by
  intro c0
  have he : checkAndRemember c0 "x" 100
      = (true, { c0 with entries := [("", 100), ("x", 100)] }) := by
    rw [checkAndRemember_eq]
    have hev : (evictExpired 100 c0).entries = [("", 100)] := by
      rw [evictExpired_entries]
      simp [List.filter]
    rw [hev]
    simp [evictExpired_ttlMs, evictExpired_maxEntries]
  rw [he]
  refine ⟨rfl, rfl, by norm_num, by simp⟩

/-- C3 as amended: `checkAndRemember(key)` returns true iff `key` is absent
after the expiry sweep; every surviving entry is within the TTL; when the
key was present the state is exactly the swept cache; when absent,
`(key, now)` is appended and, if the count then exceeds `maxEntries`, the
oldest-inserted entry is removed — unless its key is the empty string
(falsy in JS), in which case nothing is evicted; `size()` reports the
number of non-expired entries. -/
theorem dedup_cache_c3 (c : DedupCache) (key : String) (now : ℚ)
    (hmax : 1 ≤ c.maxEntries) (httl : 0 ≤ c.ttlMs) :
    ((checkAndRemember c key now).1 = true
      ↔ ∀ t, (key, t) ∉ (evictExpired now c).entries)
    ∧ (∀ e ∈ (checkAndRemember c key now).2.entries, now - e.2 ≤ c.ttlMs)
    ∧ ((checkAndRemember c key now).1 = false
        → (checkAndRemember c key now).2 = evictExpired now c)
    ∧ ((checkAndRemember c key now).1 = true
        → (key, now) ∈ (checkAndRemember c key now).2.entries)
    ∧ ((checkAndRemember c key now).1 = true →
        ((evictExpired now c).entries.length + 1 ≤ c.maxEntries →
          (checkAndRemember c key now).2.entries
            = (evictExpired now c).entries ++ [(key, now)])
        ∧ (∀ k0 t0 rest,
            (evictExpired now c).entries = (k0, t0) :: rest →
            ((k0, t0) :: rest ++ [(key, now)]).length > c.maxEntries →
            (k0 ≠ "" →
              (checkAndRemember c key now).2.entries
                = rest ++ [(key, now)])
            ∧ (k0 = "" →
              (checkAndRemember c key now).2.entries
                = (k0, t0) :: rest ++ [(key, now)])))
    ∧ DedupCache.size c now
        = (c.entries.filter (fun e => decide (now - e.2 ≤ c.ttlMs))).length
    := by
  by_cases hany :
      ((evictExpired now c).entries.any fun e => decide (e.1 = key)) = true
  · have hr : checkAndRemember c key now = (false, evictExpired now c) := by
      rw [checkAndRemember_eq, if_pos hany]
    rw [hr]
    obtain ⟨e, hmem, he⟩ := List.any_eq_true.mp hany
    obtain ⟨ek, et⟩ := e
    simp only [decide_eq_true_eq] at he
    subst he
    refine ⟨?_, ?_, fun _ => rfl, ?_, ?_, rfl⟩
    · constructor
      · intro hfalse
        exact absurd hfalse (by simp)
      · intro habs
        exact absurd hmem (habs et)
    · intro e hmem2
      rw [evictExpired_entries] at hmem2
      have := (List.mem_filter.mp hmem2).2
      simpa using this
    · intro hfalse
      exact absurd hfalse (by simp)
    · intro hfalse
      exact absurd hfalse (by simp)
  · have hmemkey : ∀ t, (key, t) ∉ (evictExpired now c).entries := by
      intro t hmem
      exact hany (List.any_eq_true.mpr ⟨(key, t), hmem, by simp⟩)
    have hr1 : (checkAndRemember c key now).1 = true := by
      rw [checkAndRemember_eq, if_neg hany]
    have hsub : ∀ e ∈ (checkAndRemember c key now).2.entries,
        e ∈ (evictExpired now c).entries ++ [(key, now)] := by
      rw [checkAndRemember_eq, if_neg hany]
      dsimp only
      cases hc1 : (evictExpired now c).entries with
      | nil =>
        intro e hmem
        split at hmem
        next hcond =>
          exfalso
          simp only [List.nil_append, List.length_cons, List.length_nil]
            at hcond
          omega
        next _ => simpa using hmem
      | cons hd rest =>
        obtain ⟨k0, t0⟩ := hd
        intro e hmem
        split at hmem
        next hcond =>
          revert hmem
          show e ∈
              (if k0 = "" then (k0, t0) :: (rest ++ [(key, now)])
               else rest ++ [(key, now)]) → _
          split
          · exact fun hmem => hmem
          · intro hmem
            exact List.mem_cons_of_mem _ hmem
        next _ => exact hmem
    refine ⟨?_, ?_, ?_, ?_, ?_, rfl⟩
    · exact ⟨fun _ => hmemkey, fun _ => hr1⟩
    · intro e hmem
      rcases List.mem_append.mp (hsub e hmem) with hmem2 | hmem2
      · rw [evictExpired_entries] at hmem2
        have := (List.mem_filter.mp hmem2).2
        simpa using this
      · have : e = (key, now) := by simpa using hmem2
        rw [this]
        simpa using httl
    · intro hfalse
      rw [hr1] at hfalse
      exact absurd hfalse (by simp)
    · intro _
      exact mem_after_remember_true c key now hmax hr1
    · intro _
      constructor
      · intro hlen
        rw [checkAndRemember_eq, if_neg hany]
        dsimp only
        rw [if_neg (by
          simp only [List.length_append, List.length_cons, List.length_nil]
          omega)]
      · intro k0 t0 rest hc1 hlen
        rw [checkAndRemember_eq, if_neg hany]
        dsimp only
        rw [hc1]
        constructor
        · intro hk0
          rw [if_pos (by
            simpa using hlen)]
          show (if k0 = "" then (k0, t0) :: (rest ++ [(key, now)])
               else rest ++ [(key, now)]) = rest ++ [(key, now)]
          rw [if_neg hk0]
        · intro hk0
          rw [if_pos (by
            simpa using hlen)]
          show (if k0 = "" then (k0, t0) :: (rest ++ [(key, now)])
               else rest ++ [(key, now)]) = (k0, t0) :: rest ++ [(key, now)]
          rw [if_pos hk0, List.cons_append]

/-- Witness for the amended C3 at the counterexample's input: the call
returns true, the new entry is present, and the oldest (empty-string) entry
survives the skipped eviction. -/
theorem dedup_cache_c3_witness :
    let c0 : DedupCache :=
      { entries := [("", 100)], ttlMs := 1000, maxEntries := 1 }
    ((checkAndRemember c0 "x" 100).1 = true
      ↔ ∀ t, ("x", t) ∉ (evictExpired 100 c0).entries)
    ∧ ((checkAndRemember c0 "x" 100).1 = true
        → ("x", (100 : ℚ)) ∈ (checkAndRemember c0 "x" 100).2.entries)
    ∧ DedupCache.size c0 100
        = (c0.entries.filter
            (fun e => decide ((100 : ℚ) - e.2 ≤ c0.ttlMs))).length := by
  intro c0
  have h := dedup_cache_c3 c0 "x" 100 (by norm_num) (by norm_num)
  exact ⟨h.1, h.2.2.2.1, h.2.2.2.2.2⟩

/-! ## C4 — at-most-one true per key within the TTL -/

/-- Counterexample to C4 as stated: with `maxEntries = 1`, the first call
on `"k"` returns true; one intervening call on another key evicts `"k"`
FIFO; the second call on `"k"` one millisecond later (far within the TTL)
returns true again — so both calls on `"k"` return true. -/
theorem dedup_ttl_c4_counterexample :
    let c0 : DedupCache :=
      { entries := [], ttlMs := 1000000, maxEntries := 1 }
    (checkAndRemember c0 "k" 0).1 = true
    ∧ (checkAndRemember
        (runCalls (checkAndRemember c0 "k" 0).2 [("a", 0)]) "k" 1).1 = true
    ∧ (1 : ℚ) - 0 ≤ c0.ttlMs := by
  intro c0
  have h1 : checkAndRemember c0 "k" 0
      = (true, { entries := [("k", 0)], ttlMs := 1000000,
                 maxEntries := 1 }) := by
    rw [checkAndRemember_eq]
    simp [evictExpired, List.filter]
  have h2 : checkAndRemember
      { entries := [("k", 0)], ttlMs := 1000000, maxEntries := 1 } "a" 0
      = (true, { entries := [("a", 0)], ttlMs := 1000000,
                 maxEntries := 1 }) := by
    rw [checkAndRemember_eq]
    have hev : (evictExpired 0
        { entries := [("k", (0 : ℚ))], ttlMs := 1000000,
          maxEntries := 1 }).entries = [("k", 0)] := by
      rw [evictExpired_entries]
      simp [List.filter]
    rw [hev]
    simp [evictExpired_ttlMs, evictExpired_maxEntries]
  have h3 : (checkAndRemember
      { entries := [("a", (0 : ℚ))], ttlMs := 1000000, maxEntries := 1 }
      "k" 1).1 = true := by
    rw [checkAndRemember_eq]
    have hev : (evictExpired 1
        { entries := [("a", (0 : ℚ))], ttlMs := 1000000,
          maxEntries := 1 }).entries = [("a", 0)] := by
      rw [evictExpired_entries]
      simp [List.filter]
    rw [hev]
    simp
  refine ⟨by rw [h1], ?_, by norm_num⟩
  rw [h1]
  show (checkAndRemember (runCalls _ [("a", 0)]) "k" 1).1 = true
  simp only [runCalls, h2]
  exact h3

/-- The core preservation argument: as long as the cache never has to
evict for capacity (the number of remaining calls fits under
`maxEntries`), an entry `(K, tK)` that every call's sweep finds unexpired
stays in the cache, the entry count stays bounded, and the configuration
is unchanged. -/
theorem runCalls_keeps (K : String) (tK : ℚ) :
    ∀ (ops : List (String × ℚ)) (c : DedupCache),
      (K, tK) ∈ c.entries →
      (∀ op ∈ ops, op.2 - tK ≤ c.ttlMs) →
      c.entries.length + ops.length ≤ c.maxEntries →
      (K, tK) ∈ (runCalls c ops).entries
      ∧ (runCalls c ops).entries.length ≤ c.entries.length + ops.length
      ∧ (runCalls c ops).ttlMs = c.ttlMs
      ∧ (runCalls c ops).maxEntries = c.maxEntries := by
  intro ops
  induction ops with
  | nil =>
    intro c hmem hts hcap
    exact ⟨hmem, by simp [runCalls], rfl, rfl⟩
  | cons op rest ih =>
    obtain ⟨k1, t1⟩ := op
    intro c hmem hts hcap
    have ht1 : t1 - tK ≤ c.ttlMs := hts (k1, t1) (by simp)
    have hmemf : (K, tK) ∈ (evictExpired t1 c).entries := by
      rw [evictExpired_entries]
      exact List.mem_filter.mpr ⟨hmem, by simpa using ht1⟩
    have hflen : (evictExpired t1 c).entries.length ≤ c.entries.length := by
      rw [evictExpired_entries]
      exact List.length_filter_le _ _
    have hcfg := checkAndRemember_config c k1 t1
    have hstep : (K, tK) ∈ (checkAndRemember c k1 t1).2.entries
        ∧ (checkAndRemember c k1 t1).2.entries.length
            ≤ c.entries.length + 1 := by
      by_cases hany : ((evictExpired t1 c).entries.any
          fun e => decide (e.1 = k1)) = true
      · have hr : checkAndRemember c k1 t1 = (false, evictExpired t1 c) := by
          rw [checkAndRemember_eq, if_pos hany]
        rw [hr]
        exact ⟨hmemf, Nat.le_succ_of_le hflen⟩
      · have hnoev :
            ¬((evictExpired t1 c).entries ++ [(k1, t1)]).length
              > c.maxEntries := by
          simp only [List.length_append, List.length_cons, List.length_nil]
          simp only [List.length_cons] at hcap
          omega
        have hr : (checkAndRemember c k1 t1).2.entries
            = (evictExpired t1 c).entries ++ [(k1, t1)] := by
          rw [checkAndRemember_eq, if_neg hany]
          dsimp only
          rw [if_neg hnoev]
        rw [hr]
        constructor
        · exact List.mem_append.mpr (Or.inl hmemf)
        · simp only [List.length_append, List.length_cons, List.length_nil]
          omega
    have hrec := ih (checkAndRemember c k1 t1).2 hstep.1
      (by
        intro op2 hop2
        rw [hcfg.1]
        exact hts op2 (List.mem_cons_of_mem _ hop2))
      (by
        rw [hcfg.2]
        simp only [List.length_cons] at hcap
        omega)
    simp only [runCalls]
    refine ⟨hrec.1, ?_, ?_, ?_⟩
    · calc (runCalls (checkAndRemember c k1 t1).2 rest).entries.length
          ≤ (checkAndRemember c k1 t1).2.entries.length + rest.length :=
            hrec.2.1
        _ ≤ c.entries.length + 1 + rest.length := by
            have := hstep.2
            omega
        _ = c.entries.length + ((k1, t1) :: rest).length := by
            simp only [List.length_cons]
            omega
    · rw [hrec.2.2.1, hcfg.1]
    · rw [hrec.2.2.2, hcfg.2]

/-- C4 as amended: for two `checkAndRemember` calls on the same key `K` at
`t1 < t2` with the TTL not elapsed in between, at most one of the two
returns true, provided the cache is not forced into FIFO capacity eviction
between them — i.e. the cache size after the first call plus the number of
intervening calls stays within `maxEntries`.  (Without that proviso,
intervening insertions can evict `K` early, as the counterexample
shows.) -/
theorem dedup_ttl_c4 (c : DedupCache) (K : String) (t1 t2 : ℚ)
    (ops : List (String × ℚ))
    (hts : ∀ op ∈ ops, op.2 ≤ t2)
    (httl12 : t2 - t1 ≤ c.ttlMs)
    (ht12 : t1 < t2)
    (hmax : 1 ≤ c.maxEntries)
    (hcap : (checkAndRemember c K t1).2.entries.length + ops.length
        ≤ c.maxEntries) :
    ¬((checkAndRemember c K t1).1 = true
      ∧ (checkAndRemember (runCalls (checkAndRemember c K t1).2 ops) K t2).1
          = true) := by
  rintro ⟨h1, h2⟩
  have hmem : (K, t1) ∈ (checkAndRemember c K t1).2.entries :=
    mem_after_remember_true c K t1 hmax h1
  have hcfg := checkAndRemember_config c K t1
  have hkeep := runCalls_keeps K t1 ops (checkAndRemember c K t1).2 hmem
    (by
      intro op hop
      rw [hcfg.1]
      have := hts op hop
      linarith)
    (by rw [hcfg.2]; exact hcap)
  have hfalse := checkAndRemember_false_of_mem
    (runCalls (checkAndRemember c K t1).2 ops) K t2 t1 hkeep.1
    (by rw [hkeep.2.2.1, hcfg.1]; exact httl12)
  rw [hfalse] at h2
  exact absurd h2 (by simp)

/-- Witness for the amended C4: with capacity 2, one intervening insertion
does not evict `K`, and the second call on `K` indeed returns false. -/
theorem dedup_ttl_c4_witness :
    let c0 : DedupCache :=
      { entries := [], ttlMs := 1000, maxEntries := 2 }
    ¬((checkAndRemember c0 "k" 0).1 = true
      ∧ (checkAndRemember
          (runCalls (checkAndRemember c0 "k" 0).2 [("a", 0)]) "k" 1).1
            = true) := by
  intro c0
  have h1 : checkAndRemember c0 "k" 0
      = (true, { entries := [("k", 0)], ttlMs := 1000,
                 maxEntries := 2 }) := by
    rw [checkAndRemember_eq]
    simp [evictExpired, List.filter]
  exact dedup_ttl_c4 c0 "k" 0 1 [("a", 0)]
    (by
      intro op hop
      simp at hop
      subst hop
      norm_num)
    (by norm_num)
    (by norm_num)
    (by norm_num)
    (by rw [h1]; norm_num)
